import Mathlib

set_option autoImplicit false

/-!
Shallow embedding of the RAG pipeline core of the `virtus` backend
(`backend/app/utils/chunking.py`, `backend/app/services/rag.py`,
`backend/app/services/embeddings.py`, `backend/app/providers/*.py`)
together with theorems settling the frozen specification claims.

External effects (tiktoken, HTTP provider calls, the Qdrant client, the
database session) are abstracted as explicit oracle parameters; the pure
control flow and data manipulation of each Python function is translated
directly.  Python exceptions are modelled with `Except String`.
-/

namespace Virtus

/-! ## Word splitting and the word-count token estimate

`anthropic_provider.py`, `ollama_provider.py` and `vllm_provider.py` all
implement `count_tokens` as `int(len(text.split()) * 1.3)`.
-/

/-- Worker for Python `str.split()` with no arguments: maximal runs of
non-whitespace characters are the words, runs of whitespace separate them,
leading and trailing whitespace is ignored.  `acc` holds the characters of
the word currently being read, in reverse order. -/
def pySplitAux : List Char → List Char → List (List Char)
  | [], acc => if acc.isEmpty then [] else [acc.reverse]
  | c :: rest, acc =>
    if c.isWhitespace then
      if acc.isEmpty then pySplitAux rest []
      else acc.reverse :: pySplitAux rest []
    else pySplitAux rest (c :: acc)

/-- Python `text.split()` on a text given as a list of characters. -/
def pySplit (text : List Char) : List (List Char) :=
  pySplitAux text []

/-- Independent characterisation of the number of whitespace-separated words:
count the maximal non-whitespace runs of the text.  The flag records whether
the previous character belonged to a word. -/
def wordRunCount : List Char → Bool → Nat
  | [], _ => 0
  | c :: rest, inWord =>
    if c.isWhitespace then wordRunCount rest false
    else (if inWord then 0 else 1) + wordRunCount rest true

/-- Python `int(w * 1.3)` for a natural word count `w`.  The IEEE-754 double
product `w * 1.3` always lies in the half-open unit interval starting at
`13 * w / 10` for every word count below roughly `10 ^ 15` (the double
nearest to 1.3 exceeds 13/10 by about 4.4e-17, and rounding the product
cannot cross an integer boundary at these magnitudes), so the Python
truncation toward zero is exactly natural-number division by 10. -/
def intTimesOnePointThree (w : Nat) : Nat :=
  13 * w / 10

/-- `AnthropicProvider.count_tokens`: `int(len(text.split()) * 1.3)`. -/
def anthropicCountTokens (text : List Char) : Nat :=
  intTimesOnePointThree (pySplit text).length

/-- `OllamaProvider.count_tokens`: `int(len(text.split()) * 1.3)`. -/
def ollamaCountTokens (text : List Char) : Nat :=
  intTimesOnePointThree (pySplit text).length

/-- `VLLMProvider.count_tokens`: `int(len(text.split()) * 1.3)`. -/
def vllmCountTokens (text : List Char) : Nat :=
  intTimesOnePointThree (pySplit text).length

/-- The estimate the specification claims: `round(word_count * 1.3)`,
rounding to the nearest integer.  Away from exact halves (the only word
counts whose product ends in .5 are multiples of 5, where the double product
is an exact tie handled separately) this is `(13 * w + 5) / 10`. -/
def claimedRoundEstimate (w : Nat) : Nat :=
  (13 * w + 5) / 10

/-! ## Token chunking (`chunk_text` in `chunking.py`, token path) -/

/-- Python slice `l[a:b]` for `0 ≤ a ≤ b`. -/
def pySlice {β : Type} (l : List β) (a b : Nat) : List β :=
  (l.take b).drop a

/-- One chunk produced by the token path of `chunk_text`: the dict
`{"content": decode(tokens[start:stop]), "metadata": {**metadata,
"chunk_index": ..., "token_count": ...}}`.  Decoding is modelled by the
token span itself, so a chunk is the span plus the two numeric metadata
entries; the shared base metadata is identical on every chunk and carried
outside. -/
structure TokenChunk where
  start : Nat
  stop : Nat
  chunk_index : Nat
  token_count : Nat
deriving DecidableEq

/-- The while-loop of `chunk_text` over the encoded token list, with explicit
fuel; `none` means the fuel was exhausted before the loop finished (the
Python loop does not terminate for `chunk_size = 0` or
`chunk_overlap ≥ chunk_size > 0` on long inputs, so the embedding makes the
number of executed iterations explicit). -/
def chunkLoop (tokens : List Nat) (chunkSize chunkOverlap : Nat) :
    Nat → Nat → Nat → Option (List TokenChunk)
  | 0, _, _ => none
  | fuel + 1, start, idx =>
    if start < tokens.length then
      let stop := min (start + chunkSize) tokens.length
      let nextStart := if stop < tokens.length then stop - chunkOverlap else stop
      match chunkLoop tokens chunkSize chunkOverlap fuel nextStart (idx + 1) with
      | none => none
      | some rest =>
        some ({ start := start, stop := stop, chunk_index := idx,
                token_count := (pySlice tokens start stop).length } :: rest)
    else some []

/-- The token path of `chunk_text` for resolved positive parameters, run with
enough fuel for the sliding window to reach the end of the token list. -/
def chunk_textTokens (tokens : List Nat) (chunkSize chunkOverlap : Nat) :
    Option (List TokenChunk) :=
  chunkLoop tokens chunkSize chunkOverlap (tokens.length + 1) 0 0

/-- `settings.CHUNK_SIZE` (`config.py`). -/
def CHUNK_SIZE : Nat := 512

/-- `settings.CHUNK_OVERLAP` (`config.py`). -/
def CHUNK_OVERLAP : Nat := 50

/-- Python `arg or default` for an optional integer argument: `None` and `0`
are falsy and coalesce to the default. -/
def pyOrDefault (arg : Option Nat) (dflt : Nat) : Nat :=
  match arg with
  | none => dflt
  | some v => if v = 0 then dflt else v

/-- `chunk_text(text, chunk_size, chunk_overlap)` parameter handling: the
public optional parameters are coalesced with `chunk_size or
settings.CHUNK_SIZE` and `chunk_overlap or settings.CHUNK_OVERLAP` before
the token loop runs. -/
def chunk_text (tokens : List Nat) (chunkSize chunkOverlap : Option Nat) :
    Option (List TokenChunk) :=
  chunk_textTokens tokens (pyOrDefault chunkSize CHUNK_SIZE)
    (pyOrDefault chunkOverlap CHUNK_OVERLAP)

/-! ## Context formatting (`RAGService.format_context` in `rag.py`) -/

/-- The two fields of a `RAGChunk` that `format_context` reads. -/
structure ContextChunk where
  document_name : String
  content : String
deriving DecidableEq

/-- The fixed instruction header prepended by `format_context`. -/
def contextHeader : String :=
  "Here is relevant context from the knowledge base:\n"

/-- The fixed instruction footer appended by `format_context`. -/
def contextFooter : String :=
  "\nUse this context to help answer the user\x27s question."

/-- One element appended to `context_parts` for the chunk at 1-based
position `i`. -/
def sourceBlock (i : Nat) (c : ContextChunk) : String :=
  "[Source " ++ toString i ++ ": " ++ c.document_name ++ "]\n" ++
    c.content ++ "\n"

/-- The list of per-chunk parts, numbering from `i` as Python
`enumerate(chunks, 1)` does from 1. -/
def sourceBlocks : Nat → List ContextChunk → List String
  | _, [] => []
  | i, c :: rest => sourceBlock i c :: sourceBlocks (i + 1) rest

/-- Python `"\n".join(parts)`. -/
def joinNewline : List String → String
  | [] => ""
  | [p] => p
  | p :: q :: rest => p ++ "\n" ++ joinNewline (q :: rest)

/-- `RAGService.format_context`. -/
def format_context (chunks : List ContextChunk) : String :=
  if chunks.isEmpty then ""
  else joinNewline (contextHeader :: (sourceBlocks 1 chunks ++ [contextFooter]))

/-- The block the claim requires for the chunk at 1-based position `i`:
the tag `[Source i: <document_name>]` immediately followed (on the next
line) by the chunk content. -/
def claimBlock (i : Nat) (c : ContextChunk) : String :=
  "[Source " ++ toString i ++ ": " ++ c.document_name ++ "]\n" ++ c.content

/-- The claim blocks for all chunks, numbered from `i`. -/
def claimBlocks : Nat → List ContextChunk → List String
  | _, [] => []
  | i, c :: rest => claimBlock i c :: claimBlocks (i + 1) rest

/-- `AppearsInOrder parts s` states that the strings of `parts` occur inside
`s`, disjointly and in the given order. -/
def AppearsInOrder : List String → String → Prop
  | [], _ => True
  | x :: rest, s => ∃ pre tail, s = pre ++ (x ++ tail) ∧ AppearsInOrder rest tail

/-! ## Vector store (`EmbeddingsService` in `embeddings.py`)

The Qdrant collection of one tenant is modelled as a presence flag plus an
association list from point id to the stored point value; `upsert`
overwrites the value of an existing id and appends unknown ids.  The
embedding request and the raw upsert network call are oracles, the latter so
that a failing upsert can be modelled (`Except.error` = the client raised).
-/

/-- One chunk dict as handed to `store_chunks`: its `content` entry plus its
metadata blob, the latter abstract. -/
structure ChunkDoc (μ : Type) where
  content : String
  metadata : μ
deriving DecidableEq

/-- The value stored at one point id: the payload written by `store_chunks`
plus the embedding vector (vectors are abstract, `α`). -/
structure PointPayload (α μ : Type) where
  content : String
  document_id : String
  organization_id : String
  metadata : μ
  vector : α
deriving DecidableEq

/-- The point identifier `f"{document_id}_{i}"` of the chunk at index `i`. -/
def pointId (documentId : String) (i : Nat) : String :=
  documentId ++ "_" ++ toString i

/-- The `points` list built by `store_chunks`:
`enumerate(zip(chunks, embeddings))` starting at index `i`; Python `zip`
truncates at the shorter list. -/
def mkPoints {α μ : Type} (organizationId documentId : String) :
    Nat → List (ChunkDoc μ) → List α → List (String × PointPayload α μ)
  | _, [], _ => []
  | _, _ :: _, [] => []
  | i, c :: cs, e :: es =>
    (pointId documentId i,
      { content := c.content, document_id := documentId,
        organization_id := organizationId, metadata := c.metadata,
        vector := e }) :: mkPoints organizationId documentId (i + 1) cs es

/-- The tenant collection: whether it exists, and its points. -/
structure TenantCollection (α μ : Type) where
  present : Bool
  points : List (String × PointPayload α μ)
deriving DecidableEq

/-- `EmbeddingsService.ensure_collection`: create the (empty) collection if
`get_collection` fails, otherwise leave the store untouched. -/
def ensure_collection {α μ : Type} (col : TenantCollection α μ) :
    TenantCollection α μ :=
  if col.present then col else { present := true, points := [] }

/-- Qdrant upsert of a single point: replace the value stored at an existing
id, append a point with a fresh id. -/
def upsertPoint {α μ : Type} (idx : List (String × PointPayload α μ))
    (p : String × PointPayload α μ) : List (String × PointPayload α μ) :=
  if idx.any (fun q => q.1 = p.1) then
    idx.map (fun q => if q.1 = p.1 then p else q)
  else idx ++ [p]

/-- Qdrant upsert of one batch of points. -/
def upsertBatch {α μ : Type} (idx : List (String × PointPayload α μ))
    (batch : List (String × PointPayload α μ)) :
    List (String × PointPayload α μ) :=
  batch.foldl upsertPoint idx

/-- The batching loop `for i in range(0, len(points), batch_size)` with
`batch_size = 100`. -/
def batches100 {β : Type} : List β → List (List β)
  | [] => []
  | x :: rest => ((x :: rest).take 100) :: batches100 ((x :: rest).drop 100)
termination_by l => l.length
decreasing_by simp; omega

/-- Issue the upsert network call batch by batch, applying each successful
batch to the collection points and stopping at the first raised exception
(the points already written stay written). -/
def runBatches {α μ : Type}
    (upsertCall : List (String × PointPayload α μ) → Except String Unit) :
    List (List (String × PointPayload α μ)) →
      List (String × PointPayload α μ) →
      Option String × List (String × PointPayload α μ)
  | [], pts => (none, pts)
  | b :: rest, pts =>
    match upsertCall b with
    | Except.error e => (some e, pts)
    | Except.ok _ => runBatches upsertCall rest (upsertBatch pts b)

/-- `EmbeddingsService.store_chunks`.  Returns the Python outcome (the
returned count, or the raised exception) together with the state of the
tenant collection afterwards; external state changes persist even when an
exception is raised. -/
def store_chunks {α μ : Type} (embed : List String → Except String (List α))
    (upsertCall : List (String × PointPayload α μ) → Except String Unit)
    (organizationId documentId : String) (chunks : List (ChunkDoc μ))
    (col : TenantCollection α μ) :
    Except String Nat × TenantCollection α μ :=
  if chunks.isEmpty then (Except.ok 0, col)
  else
    let col1 := ensure_collection col
    match embed (chunks.map ChunkDoc.content) with
    | Except.error e => (Except.error e, col1)
    | Except.ok embeddings =>
      let points := mkPoints organizationId documentId 0 chunks embeddings
      match runBatches upsertCall (batches100 points) col1.points with
      | (some e, pts) => (Except.error e, { present := col1.present, points := pts })
      | (none, pts) => (Except.ok points.length, { present := col1.present, points := pts })

/-- The point ids present in a collection, in storage order. -/
def keysOf {α μ : Type} (idx : List (String × PointPayload α μ)) : List String :=
  idx.map Prod.fst

/-- The value stored at a point id (first matching entry). -/
def lookupKey {α μ : Type} (idx : List (String × PointPayload α μ))
    (k : String) : Option (PointPayload α μ) :=
  (idx.find? (fun q => q.1 == k)).map Prod.snd

/-- Sequential upsert of a list of points (used to reason about the batched
upserts, whose net effect on the collection it equals). -/
def foldUpsert {α μ : Type} (idx : List (String × PointPayload α μ))
    (ps : List (String × PointPayload α μ)) :
    List (String × PointPayload α μ) :=
  ps.foldl upsertPoint idx

/-- The value the LAST point of `ps` carrying key `k` would store (upsert
semantics: later writes win). -/
def lastVal {α μ : Type} :
    List (String × PointPayload α μ) → String → Option (PointPayload α μ)
  | [], _ => none
  | p :: rest, k =>
    match lastVal rest k with
    | some v => some v
    | none => if p.1 = k then some p.2 else none

/-! ## Similarity search (`EmbeddingsService.search`) -/

/-- One hit returned by the Qdrant search call: the payload written at
ingestion time plus the similarity score (scores are abstract, `σ`). -/
structure SearchHit (σ μ : Type) where
  content : String
  document_id : String
  organization_id : String
  metadata : μ
  score : σ
deriving DecidableEq

/-- One dict of the list returned by `EmbeddingsService.search`: content,
document id and score pulled out of the payload, the remaining payload
entries kept as metadata. -/
structure SearchResult (σ μ : Type) where
  content : String
  document_id : String
  score : σ
  metadata : μ
deriving DecidableEq

/-- The per-hit dict construction at the end of `search`. -/
def convertHit {σ μ : Type} (h : SearchHit σ μ) : SearchResult σ μ :=
  { content := h.content, document_id := h.document_id, score := h.score,
    metadata := h.metadata }

/-- The filter construction of `search`: a `data_source_id` filter is built
only when the passed list is truthy (neither `None` nor empty). -/
def buildSearchFilter (dataSourceIds : Option (List String)) :
    Option (List String) :=
  match dataSourceIds with
  | none => none
  | some ids => if ids.isEmpty then none else some ids

/-- `EmbeddingsService.search`.  `qsearch` abstracts the Qdrant search call
(query vector, limit, filter); `embed` abstracts `generate_embeddings`.  A
missing collection (`get_collection` raising) short-circuits to the empty
list before any embedding work; afterwards the query embedding is
`(await self.generate_embeddings([query]))[0]`, whose indexing raises on an
empty result. -/
def search {α σ μ : Type}
    (qsearch : α → Nat → Option (List String) → List (SearchHit σ μ))
    (embed : List String → Except String (List α))
    (col : TenantCollection α μ) (query : String) (topK : Nat)
    (dataSourceIds : Option (List String)) :
    Except String (List (SearchResult σ μ)) :=
  if col.present = false then Except.ok []
  else
    match embed [query] with
    | Except.error e => Except.error e
    | Except.ok [] => Except.error "list index out of range"
    | Except.ok (qe :: _) =>
      Except.ok ((qsearch qe topK (buildSearchFilter dataSourceIds)).map convertHit)

/-! ## Provider embeddings delegation (`openai_provider.py`,
`anthropic_provider.py`, `vllm_provider.py`) -/

/-- `config.get(key)` on the provider config dict. -/
def configGet (config : List (String × String)) (key : String) :
    Option String :=
  (config.find? (fun p => p.1 == key)).map Prod.snd

/-- Python `x or y` on optional strings (`None` and the empty string are
falsy). -/
def pyOrStr (x : Option String) (y : Option String) : Option String :=
  match x with
  | none => y
  | some s => if s = "" then y else some s

/-- The state an `OpenAIProvider.__init__` call leaves behind: the resolved
API key and base URL the client is built from, and the embedding model
name. -/
structure OpenAIProviderState where
  api_key : Option String
  base_url : Option String
  embedding_model : String
deriving DecidableEq

/-- `OpenAIProvider(config)`: `api_key = config.get("api_key") or
settings.OPENAI_API_KEY`, `base_url = config.get("base_url")`,
`embedding_model = config.get("embedding_model",
"text-embedding-3-small")`.  The settings value comes from the environment
and is abstract. -/
def mkOpenAIProvider (config : List (String × String))
    (settingsApiKey : Option String) : OpenAIProviderState :=
  { api_key := pyOrStr (configGet config "api_key") settingsApiKey,
    base_url := configGet config "base_url",
    embedding_model :=
      (configGet config "embedding_model").getD "text-embedding-3-small" }

/-- One item of `response.data` of the embeddings endpoint. -/
structure EmbeddingItem (α : Type) where
  embedding : α
deriving DecidableEq

/-- `OpenAIProvider.get_embeddings`: resolve the model name with `model or
self.embedding_model`, call `client.embeddings.create` (abstracted as `api`,
keyed by the client construction parameters), and map out the `embedding`
field of each response item. -/
def openai_get_embeddings {α : Type}
    (api : Option String → Option String → List String → String →
      Except String (List (EmbeddingItem α)))
    (st : OpenAIProviderState) (texts : List String) (model : Option String) :
    Except String (List α) :=
  let m := match model with
    | none => st.embedding_model
    | some s => if s = "" then st.embedding_model else s
  match api st.api_key st.base_url texts m with
  | Except.error e => Except.error e
  | Except.ok items => Except.ok (items.map EmbeddingItem.embedding)

/-- `AnthropicProvider.get_embeddings`: constructs `OpenAIProvider({})` and
returns its `get_embeddings(texts, model)`. -/
def anthropic_get_embeddings {α : Type}
    (api : Option String → Option String → List String → String →
      Except String (List (EmbeddingItem α)))
    (settingsOpenAIKey : Option String) (texts : List String)
    (model : Option String) : Except String (List α) :=
  openai_get_embeddings api (mkOpenAIProvider [] settingsOpenAIKey) texts model

/-- `VLLMProvider.get_embeddings`: constructs `OpenAIProvider({})` and
returns its `get_embeddings(texts, model)`. -/
def vllm_get_embeddings {α : Type}
    (api : Option String → Option String → List String → String →
      Except String (List (EmbeddingItem α)))
    (settingsOpenAIKey : Option String) (texts : List String)
    (model : Option String) : Except String (List α) :=
  openai_get_embeddings api (mkOpenAIProvider [] settingsOpenAIKey) texts model

/-! ## Ingestion (`RAGService.upload_document` / `_process_document`) -/

/-- `ProcessingStatus` (`models/data_source.py`). -/
inductive ProcessingStatus where
  | pending
  | processing
  | ready
  | error
deriving DecidableEq

/-- The fields of the `Document` row that `upload_document` writes in its
terminal commit.  A fresh document starts with `status=processing`,
`chunk_count=0` (the column default) and no error message. -/
structure DocumentRec where
  status : ProcessingStatus
  chunk_count : Nat
  error_message : Option String
deriving DecidableEq

/-- The `DocumentUploadResponse` fields that depend on the outcome. -/
structure UploadResponse where
  status : ProcessingStatus
  message : String
deriving DecidableEq

/-- The external steps `_process_document` runs for one document:
the `extract_text` outcome for its stored file, the `chunk_text` outcome on
the extracted text, and the embedding and raw-upsert oracles used by
`store_chunks`. -/
structure IngestEnv (α μ : Type) where
  extractResult : Except String String
  chunkResult : String → Except String (List (ChunkDoc μ))
  embed : List String → Except String (List α)
  upsertCall : List (String × PointPayload α μ) → Except String Unit

/-- `RAGService._process_document`: extract, chunk, store; the first raised
exception aborts the rest.  Returns the Python outcome (the stored chunk
count, or the exception) and the tenant collection afterwards. -/
def process_document {α μ : Type} (env : IngestEnv α μ)
    (organizationId documentId : String) (col : TenantCollection α μ) :
    Except String Nat × TenantCollection α μ :=
  match env.extractResult with
  | Except.error e => (Except.error e, col)
  | Except.ok text =>
    match env.chunkResult text with
    | Except.error e => (Except.error e, col)
    | Except.ok chunks =>
      store_chunks env.embed env.upsertCall organizationId documentId chunks col

/-- The `try/except` tail of `RAGService.upload_document`: on success the
document is committed with `status=ready` and the stored chunk count, and a
success response is returned; on any exception the document is committed
with `status=error` and the exception message, and an error response is
returned.  The function is total: no exception escapes to the caller. -/
def upload_document {α μ : Type} (env : IngestEnv α μ)
    (organizationId documentId : String) (col : TenantCollection α μ) :
    DocumentRec × UploadResponse × TenantCollection α μ :=
  match process_document env organizationId documentId col with
  | (Except.ok count, col2) =>
    ({ status := ProcessingStatus.ready, chunk_count := count,
       error_message := none },
     { status := ProcessingStatus.ready,
       message := "Document processed successfully. " ++ toString count ++
         " chunks created." },
     col2)
  | (Except.error e, col2) =>
    ({ status := ProcessingStatus.error, chunk_count := 0,
       error_message := some e },
     { status := ProcessingStatus.error,
       message := "Error processing document: " ++ e },
     col2)

/-! ## Text extraction dispatch (`extract_text` in `chunking.py`) -/

/-- The four concrete extraction routines `extract_text` dispatches to. -/
inductive Extractor where
  | pdf
  | docx
  | html
  | plainText
deriving DecidableEq

/-- The DOCX content type recognized by `extract_text`. -/
def docxContentType : String :=
  "application/vnd.openxmlformats-officedocument.wordprocessingml.document"

/-- `extract_text(file_path, content_type)` from `chunking.py`, with the four
extraction routines abstracted as an oracle from extractor and file path to
the extracted plain text.  The unrecognized branch raises
`ValueError(f"Unsupported content type: ...")`. -/
def extract_text (extractors : Extractor → String → String)
    (filePath contentType : String) : Except String String :=
  if contentType = "application/pdf" then
    Except.ok (extractors Extractor.pdf filePath)
  else if contentType = docxContentType then
    Except.ok (extractors Extractor.docx filePath)
  else if contentType = "text/html" then
    Except.ok (extractors Extractor.html filePath)
  else if contentType.startsWith ("text/") then
    Except.ok (extractors Extractor.plainText filePath)
  else
    Except.error ("Unsupported content type: " ++ contentType)

/-- The recognized content-type set named by the specification. -/
def recognizedContentType (ct : String) : Bool :=
  ct = "application/pdf" || ct = docxContentType || ct = "text/html" ||
    ct.startsWith ("text/")

/-- The extractor the specification pairs with each recognized content type;
`text/html` belongs to the html branch even though it also matches the
`text/` family. -/
def extractDispatch (ct : String) : Option Extractor :=
  if ct = "application/pdf" then some Extractor.pdf
  else if ct = docxContentType then some Extractor.docx
  else if ct = "text/html" then some Extractor.html
  else if ct.startsWith ("text/") then some Extractor.plainText
  else none

/-! ## Deletion entry points (`embeddings.py`) -/

/-- `EmbeddingsService.delete_document_chunks`: the Qdrant delete call either
succeeds or raises; the method returns `True` on success and catches every
exception, returning `False`.  The result type `Except String Bool` records
what a caller of the Python method can observe: `Except.error e` would be a
propagated exception, `Except.ok b` a normal boolean return. -/
def delete_document_chunks (qdrantDelete : Except String Unit) :
    Except String Bool :=
  match qdrantDelete with
  | Except.ok _ => Except.ok true
  | Except.error _ => Except.ok false

/-- `EmbeddingsService.delete_organization_data`: drops the whole collection,
returning `True` on success; every exception is caught and `False` returned. -/
def delete_organization_data (qdrantDeleteCollection : Except String Unit) :
    Except String Bool :=
  match qdrantDeleteCollection with
  | Except.ok _ => Except.ok true
  | Except.error _ => Except.ok false


/-! ## Theorems -/

theorem pySplitAux_length (l : List Char) :
    ∀ acc : List Char,
      (pySplitAux l acc).length =
        wordRunCount l (!acc.isEmpty) + (if acc.isEmpty then 0 else 1) := by
  induction l with
  | nil =>
    intro acc
    by_cases h : acc.isEmpty <;> simp [pySplitAux, wordRunCount, h]
  | cons c rest ih =>
    intro acc
    by_cases hw : c.isWhitespace
    · by_cases h : acc.isEmpty
      · simp [pySplitAux, wordRunCount, hw, h, ih []]
      · simp [pySplitAux, wordRunCount, hw, h, ih []]
    · by_cases h : acc.isEmpty
      · have := ih (c :: acc)
        simp [pySplitAux, wordRunCount, hw, h, this]
        omega
      · have := ih (c :: acc)
        simp [pySplitAux, wordRunCount, hw, h, this]

theorem pySplit_length (text : List Char) :
    (pySplit text).length = wordRunCount text false := by
  simpa [pySplit] using pySplitAux_length text []

/-- C5 counterexample: on the three-word text `"a b c"` the three fallback
`count_tokens` implementations all return `int(3 * 1.3) = 3`, while the
value the claim prescribes, `round(3 * 1.3) = round(3.9) = 4`, differs. -/
theorem count_tokens_not_round_counterexample :
    anthropicCountTokens ("a b c".data) = 3 ∧
    ollamaCountTokens ("a b c".data) = 3 ∧
    vllmCountTokens ("a b c".data) = 3 ∧
    (pySplit ("a b c".data)).length = 3 ∧
    claimedRoundEstimate 3 = 4 ∧
    anthropicCountTokens ("a b c".data) ≠ claimedRoundEstimate 3 := by
  decide

/-- C5 amended: on every text, each of the three fallback `count_tokens`
implementations (messaging-API, local-inference-server, OpenAI-compatible
gateway) returns the truncation `int(word_count * 1.3)`, i.e.
`13 * word_count / 10` rounded toward zero, where `word_count` is the number
of maximal whitespace-separated words of the text. -/
theorem count_tokens_word_estimate (text : List Char) :
    anthropicCountTokens text = 13 * wordRunCount text false / 10 ∧
    ollamaCountTokens text = 13 * wordRunCount text false / 10 ∧
    vllmCountTokens text = 13 * wordRunCount text false / 10 := by
  refine ⟨?_, ?_, ?_⟩ <;>
    simp [anthropicCountTokens, ollamaCountTokens, vllmCountTokens,
      intTimesOnePointThree, pySplit_length]

/-- C6 counterexample: with the vector store unreachable (the raw delete
call raises), `delete_document_chunks` and `delete_organization_data` both
return `False` normally instead of propagating the exception. -/
theorem delete_entry_points_no_propagation_counterexample :
    delete_document_chunks (Except.error "vector store unreachable") =
      Except.ok false ∧
    delete_organization_data (Except.error "vector store unreachable") =
      Except.ok false ∧
    delete_document_chunks (Except.error "vector store unreachable") ≠
      Except.error "vector store unreachable" := by
  refine ⟨rfl, rfl, ?_⟩
  intro h
  exact Except.noConfusion h

/-- C6 amended: for every tenant id and document id, when the underlying
vector-store delete operation fails with any exception, `delete_document_chunks`
and `delete_organization_data` catch it and return `False` (and return
`True` on success); the failure is signalled only through the boolean return
value and is never propagated as an exception. -/
theorem delete_entry_points_catch_failures (e : String) :
    delete_document_chunks (Except.error e) = Except.ok false ∧
    delete_organization_data (Except.error e) = Except.ok false ∧
    delete_document_chunks (Except.ok ()) = Except.ok true ∧
    delete_organization_data (Except.ok ()) = Except.ok true :=
  ⟨rfl, rfl, rfl, rfl⟩

/-- C7: the messaging-API backend and the OpenAI-compatible-gateway backend
have no native embeddings endpoint; their `get_embeddings` is extensionally
equal to `get_embeddings` of the hosted-chat-API backend constructed with
the empty config (for every embeddings API oracle, settings API key, text
list and model argument) — delegation, not failure. -/
theorem get_embeddings_delegation {α : Type}
    (api : Option String → Option String → List String → String →
      Except String (List (EmbeddingItem α)))
    (settingsOpenAIKey : Option String) (texts : List String)
    (model : Option String) :
    anthropic_get_embeddings api settingsOpenAIKey texts model =
      openai_get_embeddings api (mkOpenAIProvider [] settingsOpenAIKey)
        texts model ∧
    vllm_get_embeddings api settingsOpenAIKey texts model =
      openai_get_embeddings api (mkOpenAIProvider [] settingsOpenAIKey)
        texts model ∧
    anthropic_get_embeddings api settingsOpenAIKey texts model =
      vllm_get_embeddings api settingsOpenAIKey texts model :=
  ⟨rfl, rfl, rfl⟩

/-- C4: for a tenant whose collection does not exist, `search` returns the
empty list without raising, for every query, `top_k` and data-source
filter.  The embedding oracle is universally quantified, so the result is
the empty list even under an embedding backend that fails on every call: no
query embedding is attempted. -/
theorem search_missing_collection {α σ μ : Type}
    (qsearch : α → Nat → Option (List String) → List (SearchHit σ μ))
    (embed : List String → Except String (List α))
    (col : TenantCollection α μ) (query : String) (topK : Nat)
    (dataSourceIds : Option (List String)) (h : col.present = false) :
    search qsearch embed col query topK dataSourceIds = Except.ok [] := by
  simp [search, h]

/-- C4 witness: a concrete absent collection, searched with an embedding
backend that raises on every call, yields the empty list. -/
theorem search_missing_collection_witness :
    search (fun (_ : Nat) _ _ => ([] : List (SearchHit Nat Unit)))
      (fun _ => Except.error "embedding backend down")
      ({ present := false, points := [] } : TenantCollection Nat Unit)
      "what is virtus" 5 (some ["ds1"]) = Except.ok [] :=
  search_missing_collection _ _ _ _ _ _ rfl

/-- C8: `extract_text` raises the unsupported-format `ValueError` exactly on
content types outside the recognized set {`application/pdf`, the DOCX type,
`text/html`, anything starting with `text/`}; on a recognized type it
returns the text of the corresponding extractor without raising. -/
theorem extract_text_dispatch_spec (extractors : Extractor → String → String)
    (filePath ct : String) :
    (extract_text extractors filePath ct =
        Except.error ("Unsupported content type: " ++ ct) ↔
      recognizedContentType ct = false) ∧
    (recognizedContentType ct = true ↔ (extractDispatch ct).isSome = true) ∧
    (∀ ex, extractDispatch ct = some ex →
      extract_text extractors filePath ct = Except.ok (extractors ex filePath)) := by
  unfold extract_text recognizedContentType extractDispatch
  by_cases h1 : ct = "application/pdf" <;>
    by_cases h2 : ct = docxContentType <;>
      by_cases h3 : ct = "text/html" <;>
        by_cases h4 : ct.startsWith ("text/") = true <;>
          simp_all [docxContentType]

/-- C8 witness: the PDF content type dispatches to the PDF extractor and
returns its text. -/
theorem extract_text_dispatch_spec_witness :
    extract_text (fun _ _ => "extracted text") "f.pdf" "application/pdf" =
      Except.ok "extracted text" :=
  (extract_text_dispatch_spec (fun _ _ => "extracted text") "f.pdf"
      "application/pdf").2.2 Extractor.pdf (by decide)

theorem chunkLoop_succ (tokens : List Nat) (cs ov fuel start idx : Nat) :
    chunkLoop tokens cs ov (fuel + 1) start idx =
      if start < tokens.length then
        match chunkLoop tokens cs ov fuel
            (if min (start + cs) tokens.length < tokens.length
             then min (start + cs) tokens.length - ov
             else min (start + cs) tokens.length) (idx + 1) with
        | none => none
        | some rest =>
          some ({ start := start, stop := min (start + cs) tokens.length,
                  chunk_index := idx,
                  token_count :=
                    (pySlice tokens start
                      (min (start + cs) tokens.length)).length } :: rest)
      else some [] := rfl

theorem chunkLoop_total (tokens : List Nat) (cs ov : Nat) (hov : ov < cs) :
    ∀ fuel start idx : Nat, 0 < fuel → tokens.length < fuel + start →
      ∃ l, chunkLoop tokens cs ov fuel start idx = some l := by
  intro fuel
  induction fuel with
  | zero => intro start idx h0 _; exact absurd h0 (lt_irrefl 0)
  | succ f ih =>
    intro start idx _ hlt
    rw [chunkLoop_succ]
    by_cases hs : start < tokens.length
    · rw [if_pos hs]
      have hf : 0 < f := by omega
      have hnext : tokens.length < f +
          (if min (start + cs) tokens.length < tokens.length
           then min (start + cs) tokens.length - ov
           else min (start + cs) tokens.length) := by
        by_cases hlt2 : min (start + cs) tokens.length < tokens.length <;>
          simp only [hlt2, if_true, if_false] <;> omega
      obtain ⟨l, hl⟩ := ih _ (idx + 1) hf hnext
      rw [hl]
      exact ⟨_, rfl⟩
    · rw [if_neg hs]
      exact ⟨[], rfl⟩

theorem chunkLoop_fuel_succ (tokens : List Nat) (cs ov : Nat) (hov : ov < cs) :
    ∀ fuel start idx : Nat, 0 < fuel → tokens.length < fuel + start →
      chunkLoop tokens cs ov (fuel + 1) start idx =
        chunkLoop tokens cs ov fuel start idx := by
  intro fuel
  induction fuel with
  | zero => intro start idx h0 _; exact absurd h0 (lt_irrefl 0)
  | succ f ih =>
    intro start idx _ hlt
    rw [chunkLoop_succ tokens cs ov (f + 1) start idx,
      chunkLoop_succ tokens cs ov f start idx]
    by_cases hs : start < tokens.length
    · rw [if_pos hs, if_pos hs]
      have hf : 0 < f := by omega
      have hnext : tokens.length < f +
          (if min (start + cs) tokens.length < tokens.length
           then min (start + cs) tokens.length - ov
           else min (start + cs) tokens.length) := by
        by_cases hlt2 : min (start + cs) tokens.length < tokens.length <;>
          simp only [hlt2, if_true, if_false] <;> omega
      rw [ih _ (idx + 1) hf hnext]
    · rw [if_neg hs, if_neg hs]

theorem chunkLoop_fuel_ge (tokens : List Nat) (cs ov : Nat) (hov : ov < cs) :
    ∀ d fuel start idx : Nat, 0 < fuel → tokens.length < fuel + start →
      chunkLoop tokens cs ov (fuel + d) start idx =
        chunkLoop tokens cs ov fuel start idx := by
  intro d
  induction d with
  | zero => intro fuel start idx _ _; rfl
  | succ k ih =>
    intro fuel start idx hf hlt
    rw [show fuel + (k + 1) = (fuel + k) + 1 from rfl,
      chunkLoop_fuel_succ tokens cs ov hov (fuel + k) start idx (by omega)
        (by omega),
      ih fuel start idx hf hlt]

theorem chunkLoop_spec (tokens : List Nat) (cs ov : Nat) (hov : ov < cs) :
    ∀ fuel start idx l, chunkLoop tokens cs ov fuel start idx = some l →
      (tokens.length ≤ start → l = []) ∧
      (start < tokens.length → l.head?.map TokenChunk.start = some start) ∧
      List.Chain' (fun a b => b.start = a.stop - ov) l ∧
      (start < tokens.length →
        l.getLast?.map TokenChunk.stop = some tokens.length) ∧
      (∀ c ∈ l, c.stop = min (c.start + cs) tokens.length) := by
  intro fuel
  induction fuel with
  | zero => intro start idx l h; exact absurd h (by simp [chunkLoop])
  | succ f ih =>
    intro start idx l h
    rw [chunkLoop_succ] at h
    by_cases hs : start < tokens.length
    · rw [if_pos hs] at h
      cases hrec : chunkLoop tokens cs ov f
          (if min (start + cs) tokens.length < tokens.length
           then min (start + cs) tokens.length - ov
           else min (start + cs) tokens.length) (idx + 1) with
      | none => rw [hrec] at h; exact absurd h (by simp)
      | some rest =>
        rw [hrec] at h
        have hl : TokenChunk.mk start (min (start + cs) tokens.length) idx
            (pySlice tokens start (min (start + cs) tokens.length)).length ::
            rest = l := by
          simpa using h
        subst hl
        by_cases hlt2 : min (start + cs) tokens.length < tokens.length
        · rw [if_pos hlt2] at hrec
          have hnextlt : min (start + cs) tokens.length - ov < tokens.length := by
            omega
          obtain ⟨hre, hrh, hrc, hrl, hrs⟩ := ih _ (idx + 1) rest hrec
          have hresthead := hrh hnextlt
          obtain ⟨r, rs, rfl⟩ : ∃ r rs, rest = r :: rs := by
            cases rest with
            | nil => simp at hresthead
            | cons r rs => exact ⟨r, rs, rfl⟩
          have hrstart : r.start = min (start + cs) tokens.length - ov := by
            simpa using hresthead
          refine ⟨fun hc => absurd hc (by omega), fun _ => rfl, ?_, fun _ => ?_,
            ?_⟩
          · rw [List.chain'_cons]
            exact ⟨hrstart, hrc⟩
          · rw [List.getLast?_cons_cons]
            exact hrl hnextlt
          · intro c hc
            rcases List.mem_cons.mp hc with rfl | hc
            · rfl
            · exact hrs c hc
        · rw [if_neg hlt2] at hrec
          have hstop : min (start + cs) tokens.length = tokens.length := by
            omega
          have hrest : rest = [] :=
            (ih _ (idx + 1) rest hrec).1 (by omega)
          subst hrest
          refine ⟨fun hc => absurd hc (by omega), fun _ => rfl,
            List.chain'_singleton _, fun _ => ?_, ?_⟩
          · simp [hstop]
          · intro c hc
            rcases List.mem_cons.mp hc with rfl | hc
            · rfl
            · simp at hc
    · rw [if_neg hs] at h
      have hl : l = [] := by
        simpa using h.symm
      subst hl
      refine ⟨fun _ => rfl, fun hc => absurd hc hs, List.chain'_nil,
        fun hc => absurd hc hs, ?_⟩
      intro c hc
      simp at hc

/-- C1: for every token sequence and parameters `0 < chunk_size`,
`overlap < chunk_size` (as the token path of `chunk_text` uses them), the
chunking loop terminates (any fuel of at least `length + 1` iterations
yields the same result, so the result is independent of the bound),
chunking is deterministic (it is a function of its arguments), and the
ordered chunk spans cover the whole token sequence with no gaps: the first
span starts at 0, each subsequent span starts at the previous stop minus
the overlap, every stop is `min (start + chunk_size) length`, and the last
stop is the total token count (the empty text yields no chunks). -/
theorem chunk_text_token_spans (tokens : List Nat) (cs ov : Nat)
    (hcs : 0 < cs) (hov : ov < cs) :
    ∃ chunks, chunk_textTokens tokens cs ov = some chunks ∧
      (∀ fuel, tokens.length + 1 ≤ fuel →
        chunkLoop tokens cs ov fuel 0 0 = some chunks) ∧
      (tokens.length = 0 → chunks = []) ∧
      (0 < tokens.length → chunks.head?.map TokenChunk.start = some 0) ∧
      List.Chain' (fun a b => b.start = a.stop - ov) chunks ∧
      (0 < tokens.length →
        chunks.getLast?.map TokenChunk.stop = some tokens.length) ∧
      (∀ c ∈ chunks, c.stop = min (c.start + cs) tokens.length) := by
  obtain ⟨chunks, hch⟩ :=
    chunkLoop_total tokens cs ov hov (tokens.length + 1) 0 0 (by omega)
      (by omega)
  have hspec := chunkLoop_spec tokens cs ov hov _ 0 0 chunks hch
  refine ⟨chunks, hch, ?_, ?_, hspec.2.1, hspec.2.2.1, hspec.2.2.2.1,
    hspec.2.2.2.2⟩
  · intro fuel hfuel
    have hge := chunkLoop_fuel_ge tokens cs ov hov
      (fuel - (tokens.length + 1)) (tokens.length + 1) 0 0 (by omega)
      (by omega)
    rw [show tokens.length + 1 + (fuel - (tokens.length + 1)) = fuel from
      by omega] at hge
    rw [hge]
    exact hch
  · intro h0
    exact hspec.1 (by omega)

/-- C1 witness: five tokens chunked with window 2 and overlap 1 produce the
spans `[0,2) [1,3) [2,4) [3,5)`, satisfying every conjunct. -/
theorem chunk_text_token_spans_witness :
    ∃ chunks, chunk_textTokens [10, 11, 12, 13, 14] 2 1 = some chunks ∧
      (∀ fuel, ([10, 11, 12, 13, 14] : List Nat).length + 1 ≤ fuel →
        chunkLoop [10, 11, 12, 13, 14] 2 1 fuel 0 0 = some chunks) ∧
      (([10, 11, 12, 13, 14] : List Nat).length = 0 → chunks = []) ∧
      (0 < ([10, 11, 12, 13, 14] : List Nat).length →
        chunks.head?.map TokenChunk.start = some 0) ∧
      List.Chain' (fun a b => b.start = a.stop - 1) chunks ∧
      (0 < ([10, 11, 12, 13, 14] : List Nat).length →
        chunks.getLast?.map TokenChunk.stop =
          some ([10, 11, 12, 13, 14] : List Nat).length) ∧
      (∀ c ∈ chunks,
        c.stop = min (c.start + 2) ([10, 11, 12, 13, 14] : List Nat).length) :=
  chunk_text_token_spans [10, 11, 12, 13, 14] 2 1 (by decide) (by decide)

theorem appearsInOrder_prepend (xs : List String) (p s : String)
    (h : AppearsInOrder xs s) : AppearsInOrder xs (p ++ s) := by
  cases xs with
  | nil => trivial
  | cons x rest =>
    obtain ⟨pre, tail, hs, htail⟩ := h
    exact ⟨p ++ pre, tail, by rw [hs, String.append_assoc], htail⟩

theorem sourceBlock_eq_claimBlock (i : Nat) (c : ContextChunk) :
    sourceBlock i c = claimBlock i c ++ "\n" := rfl

theorem joinNewline_append_last (l : List String) (t : String) :
    ∃ p, joinNewline (l ++ [t]) = p ++ t := by
  induction l with
  | nil => exact ⟨"", (String.empty_append t).symm⟩
  | cons x rest ih =>
    cases rest with
    | nil => exact ⟨x ++ "\n", rfl⟩
    | cons y rs =>
      obtain ⟨p, hp⟩ := ih
      refine ⟨x ++ "\n" ++ p, ?_⟩
      show x ++ "\n" ++ joinNewline ((y :: rs) ++ [t]) = x ++ "\n" ++ p ++ t
      rw [hp, String.append_assoc (x ++ "\n") p t]

theorem appears_joinNewline (cs : List ContextChunk) :
    ∀ (i : Nat) (t : String),
      AppearsInOrder (claimBlocks i cs ++ [t])
        (joinNewline (sourceBlocks i cs ++ [t])) := by
  induction cs with
  | nil =>
    intro i t
    show AppearsInOrder [t] (joinNewline [t])
    exact ⟨"", "", by simp [joinNewline], trivial⟩
  | cons c rest ih =>
    intro i t
    show AppearsInOrder (claimBlock i c :: (claimBlocks (i + 1) rest ++ [t]))
      (joinNewline (sourceBlock i c :: (sourceBlocks (i + 1) rest ++ [t])))
    have hne : sourceBlocks (i + 1) rest ++ [t] ≠ [] := by simp
    obtain ⟨q, qs, hq⟩ : ∃ q qs, sourceBlocks (i + 1) rest ++ [t] = q :: qs := by
      cases hx : sourceBlocks (i + 1) rest ++ [t] with
      | nil => exact absurd hx hne
      | cons q qs => exact ⟨q, qs, rfl⟩
    rw [hq]
    show AppearsInOrder (claimBlock i c :: (claimBlocks (i + 1) rest ++ [t]))
      (sourceBlock i c ++ "\n" ++ joinNewline (q :: qs))
    refine ⟨"", "\n" ++ ("\n" ++ joinNewline (q :: qs)), ?_, ?_⟩
    · rw [String.empty_append, sourceBlock_eq_claimBlock,
        String.append_assoc, String.append_assoc]
    · rw [← hq]
      exact appearsInOrder_prepend _ _ _
        (appearsInOrder_prepend _ _ _ (ih (i + 1) t))

/-- C9: `format_context` applied to the empty chunk list returns the empty
string; applied to a non-empty list it returns a text that starts with the
fixed instruction header, ends with the fixed instruction footer, and
contains, in order between them, for each chunk the block
`[Source i: <document_name>]` (1-based `i`) followed by the chunk content. -/
theorem format_context_spec :
    format_context [] = "" ∧
    ∀ chunks : List ContextChunk, chunks ≠ [] →
      (∃ t, format_context chunks = contextHeader ++ t) ∧
      (∃ p, format_context chunks = p ++ contextFooter) ∧
      AppearsInOrder
        (contextHeader :: (claimBlocks 1 chunks ++ [contextFooter]))
        (format_context chunks) := by
  refine ⟨rfl, ?_⟩
  intro chunks hne
  obtain ⟨c, rest, rfl⟩ : ∃ c rest, chunks = c :: rest := by
    cases chunks with
    | nil => exact absurd rfl hne
    | cons c rest => exact ⟨c, rest, rfl⟩
  have hfc : format_context (c :: rest) =
      contextHeader ++ "\n" ++
        joinNewline (sourceBlocks 1 (c :: rest) ++ [contextFooter]) := rfl
  refine ⟨?_, ?_, ?_⟩
  · exact ⟨"\n" ++ joinNewline (sourceBlocks 1 (c :: rest) ++ [contextFooter]),
      by rw [hfc, String.append_assoc]⟩
  · obtain ⟨p, hp⟩ :=
      joinNewline_append_last (contextHeader :: sourceBlocks 1 (c :: rest))
        contextFooter
    exact ⟨p, by rw [format_context, if_neg (by simp)] ; simpa using hp⟩
  · rw [hfc]
    refine ⟨"", "\n" ++ joinNewline (sourceBlocks 1 (c :: rest) ++ [contextFooter]),
      ?_, ?_⟩
    · rw [String.empty_append, String.append_assoc]
    · exact appearsInOrder_prepend _ _ _ (appears_joinNewline (c :: rest) 1 contextFooter)

/-- C9 witness: a concrete one-chunk context starts with the header, ends
with the footer, and contains the source block of the chunk. -/
theorem format_context_spec_witness :
    (∃ t, format_context [⟨"doc.txt", "hello world"⟩] = contextHeader ++ t) ∧
    (∃ p, format_context [⟨"doc.txt", "hello world"⟩] = p ++ contextFooter) ∧
    AppearsInOrder
      (contextHeader ::
        (claimBlocks 1 [⟨"doc.txt", "hello world"⟩] ++ [contextFooter]))
      (format_context [⟨"doc.txt", "hello world"⟩]) :=
  format_context_spec.2 [⟨"doc.txt", "hello world"⟩] (by simp)

/-- C10: passing `0` or `None` for `chunk_size` or `chunk_overlap` is
exactly equivalent to passing the configured defaults
`settings.CHUNK_SIZE` / `settings.CHUNK_OVERLAP`, because falsy arguments
are coalesced with `or`; in particular `chunk_overlap = 0` resolves to the
default overlap 50, never to zero overlap. -/
theorem chunk_text_falsy_params (tokens : List Nat) (cs ov : Option Nat) :
    chunk_text tokens none ov = chunk_text tokens (some CHUNK_SIZE) ov ∧
    chunk_text tokens (some 0) ov = chunk_text tokens (some CHUNK_SIZE) ov ∧
    chunk_text tokens cs none = chunk_text tokens cs (some CHUNK_OVERLAP) ∧
    chunk_text tokens cs (some 0) = chunk_text tokens cs (some CHUNK_OVERLAP) ∧
    chunk_text tokens none none =
      chunk_text tokens (some CHUNK_SIZE) (some CHUNK_OVERLAP) ∧
    chunk_text tokens (some 0) (some 0) =
      chunk_text tokens (some CHUNK_SIZE) (some CHUNK_OVERLAP) ∧
    pyOrDefault (some 0) CHUNK_OVERLAP = CHUNK_OVERLAP ∧
    CHUNK_OVERLAP ≠ 0 := by
  simp [chunk_text, pyOrDefault, CHUNK_SIZE, CHUNK_OVERLAP]

theorem upsertPoint_cond {α μ : Type} (idx : List (String × PointPayload α μ))
    (p : String × PointPayload α μ) :
    (idx.any (fun q => q.1 = p.1)) = true ↔ p.1 ∈ keysOf idx := by
  rw [List.any_eq_true]
  constructor
  · rintro ⟨q, hq, hdec⟩
    exact List.mem_map.mpr ⟨q, hq, of_decide_eq_true hdec⟩
  · intro hm
    obtain ⟨q, hq, hqp⟩ := List.mem_map.mp hm
    exact ⟨q, hq, decide_eq_true hqp⟩

theorem keysOf_upsertPoint_of_mem {α μ : Type}
    {idx : List (String × PointPayload α μ)} {p : String × PointPayload α μ}
    (h : p.1 ∈ keysOf idx) : keysOf (upsertPoint idx p) = keysOf idx := by
  unfold upsertPoint
  rw [if_pos ((upsertPoint_cond idx p).mpr h)]
  show (idx.map fun q => if q.1 = p.1 then p else q).map Prod.fst =
    idx.map Prod.fst
  rw [List.map_map]
  refine List.map_congr_left ?_
  intro q _
  by_cases hqp : q.1 = p.1 <;> simp [Function.comp, hqp]

theorem keysOf_upsertPoint_of_not_mem {α μ : Type}
    {idx : List (String × PointPayload α μ)} {p : String × PointPayload α μ}
    (h : p.1 ∉ keysOf idx) :
    keysOf (upsertPoint idx p) = keysOf idx ++ [p.1] := by
  unfold upsertPoint
  rw [if_neg (fun hc => h ((upsertPoint_cond idx p).mp hc))]
  simp [keysOf]

theorem mem_keysOf_upsertPoint {α μ : Type}
    {idx : List (String × PointPayload α μ)} {p : String × PointPayload α μ}
    {k : String} (h : k ∈ keysOf idx) : k ∈ keysOf (upsertPoint idx p) := by
  by_cases hm : p.1 ∈ keysOf idx
  · rw [keysOf_upsertPoint_of_mem hm]; exact h
  · rw [keysOf_upsertPoint_of_not_mem hm]; exact List.mem_append_left _ h

theorem self_mem_keysOf_upsertPoint {α μ : Type}
    (idx : List (String × PointPayload α μ)) (p : String × PointPayload α μ) :
    p.1 ∈ keysOf (upsertPoint idx p) := by
  by_cases hm : p.1 ∈ keysOf idx
  · rw [keysOf_upsertPoint_of_mem hm]; exact hm
  · rw [keysOf_upsertPoint_of_not_mem hm]; simp

theorem nodup_keysOf_upsertPoint {α μ : Type}
    {idx : List (String × PointPayload α μ)} {p : String × PointPayload α μ}
    (h : (keysOf idx).Nodup) : (keysOf (upsertPoint idx p)).Nodup := by
  by_cases hm : p.1 ∈ keysOf idx
  · rw [keysOf_upsertPoint_of_mem hm]; exact h
  · rw [keysOf_upsertPoint_of_not_mem hm]
    simp [List.nodup_append, h, hm]

theorem lookupKey_cons {α μ : Type} (q : String × PointPayload α μ)
    (rest : List (String × PointPayload α μ)) (k : String) :
    lookupKey (q :: rest) k =
      if q.1 = k then some q.2 else lookupKey rest k := by
  by_cases hq : q.1 = k <;> simp [lookupKey, List.find?_cons, hq]

theorem lookupKey_eq_none_of_not_mem {α μ : Type}
    {idx : List (String × PointPayload α μ)} {k : String}
    (h : k ∉ keysOf idx) : lookupKey idx k = none := by
  unfold lookupKey
  rw [List.find?_eq_none.mpr]
  · rfl
  · intro q hq
    simp only [beq_iff_eq]
    intro hqk
    exact h (List.mem_map.mpr ⟨q, hq, hqk⟩)

theorem lookupKey_map_replace {α μ : Type} (p : String × PointPayload α μ)
    (k : String) :
    ∀ idx : List (String × PointPayload α μ),
      lookupKey (idx.map fun q => if q.1 = p.1 then p else q) k =
        if p.1 = k then (if p.1 ∈ keysOf idx then some p.2 else none)
        else lookupKey idx k := by
  intro idx
  induction idx with
  | nil => by_cases hk : p.1 = k <;> simp [lookupKey, keysOf, hk]
  | cons q rest ih =>
    rw [List.map_cons, lookupKey_cons, lookupKey_cons]
    by_cases hq : q.1 = p.1
    · rw [if_pos hq]
      by_cases hk : p.1 = k
      · rw [if_pos hk, if_pos hk, if_pos (by simp [keysOf, hq])]
      · rw [if_neg hk, if_neg hk, ih, if_neg hk,
          if_neg (fun hqk => hk (hq ▸ hqk))]
    · rw [if_neg hq]
      by_cases hqk : q.1 = k
      · have hk : ¬ p.1 = k := fun hpk => hq (hqk.trans hpk.symm)
        rw [if_pos hqk, if_pos hqk, if_neg hk]
      · rw [if_neg hqk, if_neg hqk, ih]
        by_cases hk : p.1 = k
        · rw [if_pos hk, if_pos hk]
          have hmem : p.1 ∈ keysOf (q :: rest) ↔ p.1 ∈ keysOf rest := by
            simp only [keysOf, List.map_cons, List.mem_cons]
            constructor
            · rintro (h1 | h2)
              · exact absurd h1.symm hq
              · exact h2
            · exact Or.inr
          by_cases hr : p.1 ∈ keysOf rest
          · rw [if_pos hr, if_pos (hmem.mpr hr)]
          · rw [if_neg hr, if_neg (fun hc => hr (hmem.mp hc))]
        · rw [if_neg hk, if_neg hk]

theorem lookupKey_upsertPoint {α μ : Type}
    (idx : List (String × PointPayload α μ)) (p : String × PointPayload α μ)
    (k : String) :
    lookupKey (upsertPoint idx p) k =
      if p.1 = k then some p.2 else lookupKey idx k := by
  unfold upsertPoint
  by_cases hm : p.1 ∈ keysOf idx
  · rw [if_pos ((upsertPoint_cond idx p).mpr hm), lookupKey_map_replace,
      if_pos hm]
  · rw [if_neg (fun hc => hm ((upsertPoint_cond idx p).mp hc))]
    unfold lookupKey
    rw [List.find?_append]
    by_cases hk : p.1 = k
    · have hnone : idx.find? (fun q => q.1 == k) = none := by
        rw [List.find?_eq_none]
        intro q hq
        simp only [beq_iff_eq]
        intro hqk
        exact hm (List.mem_map.mpr ⟨q, hq, hqk.trans hk.symm⟩)
      simp [hnone, hk]
    · cases hfind : idx.find? (fun q => q.1 == k) with
      | none => simp [hfind, hk]
      | some v => simp [hfind, hk]

theorem foldUpsert_nil {α μ : Type} (idx : List (String × PointPayload α μ)) :
    foldUpsert idx [] = idx := rfl

theorem foldUpsert_cons {α μ : Type} (idx : List (String × PointPayload α μ))
    (p : String × PointPayload α μ) (ps : List (String × PointPayload α μ)) :
    foldUpsert idx (p :: ps) = foldUpsert (upsertPoint idx p) ps := rfl

theorem mem_keysOf_foldUpsert {α μ : Type} {k : String} :
    ∀ (ps : List (String × PointPayload α μ)) (idx : List (String × PointPayload α μ)),
      k ∈ keysOf idx → k ∈ keysOf (foldUpsert idx ps) := by
  intro ps
  induction ps with
  | nil => intro idx h; exact h
  | cons p ps ih =>
    intro idx h
    rw [foldUpsert_cons]
    exact ih _ (mem_keysOf_upsertPoint h)

theorem keysOf_foldUpsert_self {α μ : Type} :
    ∀ (ps : List (String × PointPayload α μ)) (idx : List (String × PointPayload α μ))
      (p : String × PointPayload α μ), p ∈ ps →
      p.1 ∈ keysOf (foldUpsert idx ps) := by
  intro ps
  induction ps with
  | nil => intro idx p h; simp at h
  | cons q qs ih =>
    intro idx p h
    rw [foldUpsert_cons]
    rcases List.mem_cons.mp h with rfl | h
    · exact mem_keysOf_foldUpsert qs _ (self_mem_keysOf_upsertPoint idx p)
    · exact ih _ p h

theorem nodup_keysOf_foldUpsert {α μ : Type} :
    ∀ (ps : List (String × PointPayload α μ)) (idx : List (String × PointPayload α μ)),
      (keysOf idx).Nodup → (keysOf (foldUpsert idx ps)).Nodup := by
  intro ps
  induction ps with
  | nil => intro idx h; exact h
  | cons p ps ih =>
    intro idx h
    rw [foldUpsert_cons]
    exact ih _ (nodup_keysOf_upsertPoint h)

theorem keysOf_foldUpsert_of_sub {α μ : Type} :
    ∀ (ps : List (String × PointPayload α μ)) (idx : List (String × PointPayload α μ)),
      (∀ p ∈ ps, p.1 ∈ keysOf idx) → keysOf (foldUpsert idx ps) = keysOf idx := by
  intro ps
  induction ps with
  | nil => intro idx _; rfl
  | cons p ps ih =>
    intro idx h
    rw [foldUpsert_cons]
    have hp : p.1 ∈ keysOf idx := h p (List.mem_cons_self p ps)
    rw [ih _ (fun q hq => mem_keysOf_upsertPoint (h q (List.mem_cons_of_mem p hq))),
      keysOf_upsertPoint_of_mem hp]

theorem lookupKey_foldUpsert {α μ : Type} :
    ∀ (ps : List (String × PointPayload α μ)) (idx : List (String × PointPayload α μ))
      (k : String),
      lookupKey (foldUpsert idx ps) k =
        match lastVal ps k with
        | some v => some v
        | none => lookupKey idx k := by
  intro ps
  induction ps with
  | nil => intro idx k; rfl
  | cons p ps ih =>
    intro idx k
    rw [foldUpsert_cons, ih]
    show _ = (match lastVal (p :: ps) k with
      | some v => some v
      | none => lookupKey idx k)
    cases hl : lastVal ps k with
    | some v => simp [lastVal, hl]
    | none =>
      rw [lookupKey_upsertPoint]
      by_cases hk : p.1 = k <;> simp [lastVal, hl, hk]

theorem assocList_ext {α μ : Type} :
    ∀ (idx1 idx2 : List (String × PointPayload α μ)),
      keysOf idx1 = keysOf idx2 →
      (∀ k, lookupKey idx1 k = lookupKey idx2 k) →
      (keysOf idx1).Nodup → idx1 = idx2 := by
  intro idx1
  induction idx1 with
  | nil =>
    intro idx2 hkeys _ _
    have : idx2.map Prod.fst = [] := hkeys.symm
    exact (List.map_eq_nil.mp this).symm
  | cons q rest ih =>
    intro idx2 hkeys hlook hnodup
    cases idx2 with
    | nil => exact absurd hkeys (by simp [keysOf])
    | cons q2 rest2 =>
      have hkey_head : q.1 = q2.1 := by
        have := hkeys
        simp only [keysOf, List.map_cons, List.cons.injEq] at this
        exact this.1
      have hkeys_tail : keysOf rest = keysOf rest2 := by
        have := hkeys
        simp only [keysOf, List.map_cons, List.cons.injEq] at this
        exact this.2
      have hval : q.2 = q2.2 := by
        have h1 := hlook q.1
        rw [lookupKey_cons, lookupKey_cons, if_pos rfl,
          if_pos hkey_head.symm] at h1
        exact Option.some.inj h1
      have hnotin : q.1 ∉ keysOf rest := by
        simp only [keysOf, List.map_cons, List.nodup_cons] at hnodup
        exact hnodup.1
      have hlook_tail : ∀ k, lookupKey rest k = lookupKey rest2 k := by
        intro k
        by_cases hk : q.1 = k
        · rw [lookupKey_eq_none_of_not_mem (hk ▸ hnotin),
            lookupKey_eq_none_of_not_mem (hk ▸ (hkeys_tail ▸ hnotin))]
        · have h1 := hlook k
          rw [lookupKey_cons, lookupKey_cons, if_neg hk,
            if_neg (hkey_head ▸ hk)] at h1
          exact h1
      have hnodup_tail : (keysOf rest).Nodup := by
        simp only [keysOf, List.map_cons, List.nodup_cons] at hnodup
        exact hnodup.2
      have htail := ih rest2 hkeys_tail hlook_tail hnodup_tail
      have hhead : q = q2 := Prod.ext hkey_head hval
      rw [hhead, htail]

theorem foldUpsert_idem {α μ : Type}
    (ps : List (String × PointPayload α μ))
    (idx : List (String × PointPayload α μ))
    (h : (keysOf idx).Nodup) :
    foldUpsert (foldUpsert idx ps) ps = foldUpsert idx ps := by
  refine assocList_ext _ _ ?_ ?_ ?_
  · exact keysOf_foldUpsert_of_sub ps _ (fun p hp => keysOf_foldUpsert_self ps idx p hp)
  · intro k
    rw [lookupKey_foldUpsert, lookupKey_foldUpsert]
    cases hl : lastVal ps k with
    | some v => rfl
    | none => rfl
  · exact nodup_keysOf_foldUpsert ps _ (nodup_keysOf_foldUpsert ps idx h)

theorem batches100_join_aux {β : Type} :
    ∀ (n : Nat) (l : List β), l.length ≤ n → (batches100 l).join = l := by
  intro n
  induction n with
  | zero =>
    intro l hl
    have hnil : l = [] := List.eq_nil_of_length_eq_zero (Nat.le_zero.mp hl)
    subst hnil
    rw [batches100]
    rfl
  | succ n ih =>
    intro l hl
    cases l with
    | nil => rw [batches100]; rfl
    | cons x rest =>
      rw [batches100]
      show List.take 100 (x :: rest) ++
        (batches100 (List.drop 100 (x :: rest))).join = x :: rest
      rw [ih ((x :: rest).drop 100)
        (by simp only [List.length_drop, List.length_cons]
            simp only [List.length_cons] at hl
            omega)]
      exact List.take_append_drop 100 (x :: rest)

theorem batches100_join {β : Type} (l : List β) : (batches100 l).join = l :=
  batches100_join_aux l.length l (le_refl _)

theorem foldl_upsertBatch_join {α μ : Type} :
    ∀ (L : List (List (String × PointPayload α μ)))
      (idx : List (String × PointPayload α μ)),
      L.foldl upsertBatch idx = foldUpsert idx L.join := by
  intro L
  induction L with
  | nil => intro idx; rfl
  | cons b L ih =>
    intro idx
    rw [List.foldl_cons, ih]
    show foldUpsert (upsertBatch idx b) L.join =
      (b ++ L.join).foldl upsertPoint idx
    rw [List.foldl_append]
    rfl

theorem foldl_upsertBatch_batches100 {α μ : Type}
    (ps : List (String × PointPayload α μ))
    (idx : List (String × PointPayload α μ)) :
    (batches100 ps).foldl upsertBatch idx = foldUpsert idx ps := by
  rw [foldl_upsertBatch_join, batches100_join]

theorem runBatches_none {α μ : Type}
    (up : List (String × PointPayload α μ) → Except String Unit) :
    ∀ (bs : List (List (String × PointPayload α μ)))
      (pts pts2 : List (String × PointPayload α μ)),
      runBatches up bs pts = (none, pts2) →
      (∀ b ∈ bs, up b = Except.ok ()) ∧ pts2 = bs.foldl upsertBatch pts := by
  intro bs
  induction bs with
  | nil =>
    intro pts pts2 h
    refine ⟨by simp, ?_⟩
    have := (Prod.mk.injEq _ _ _ _ ▸ h).2
    exact this.symm
  | cons b bs ih =>
    intro pts pts2 h
    rw [runBatches] at h
    cases hub : up b with
    | error e => rw [hub] at h; exact absurd ((Prod.mk.injEq _ _ _ _ ▸ h).1) (by simp)
    | ok u =>
      rw [hub] at h
      obtain ⟨hall, heq⟩ := ih (upsertBatch pts b) pts2 h
      refine ⟨?_, by simpa using heq⟩
      intro b2 hb2
      rcases List.mem_cons.mp hb2 with rfl | hb2
      · exact hub
      · exact hall b2 hb2

theorem runBatches_all_ok {α μ : Type}
    (up : List (String × PointPayload α μ) → Except String Unit) :
    ∀ (bs : List (List (String × PointPayload α μ)))
      (pts : List (String × PointPayload α μ)),
      (∀ b ∈ bs, up b = Except.ok ()) →
      runBatches up bs pts = (none, bs.foldl upsertBatch pts) := by
  intro bs
  induction bs with
  | nil => intro pts _; rfl
  | cons b bs ih =>
    intro pts hall
    rw [runBatches, hall b (List.mem_cons_self b bs)]
    exact ih (upsertBatch pts b) (fun b2 hb2 => hall b2 (List.mem_cons_of_mem b hb2))

theorem mkPoints_length {α μ : Type} (org doc : String) :
    ∀ (chunks : List (ChunkDoc μ)) (embs : List α) (s : Nat),
      (mkPoints org doc s chunks embs).length = min chunks.length embs.length := by
  intro chunks
  induction chunks with
  | nil => intro embs s; simp [mkPoints]
  | cons c cs ih =>
    intro embs s
    cases embs with
    | nil => simp [mkPoints]
    | cons e es =>
      rw [mkPoints]
      simp only [List.length_cons, ih es (s + 1)]
      omega

theorem keysOf_mkPoints {α μ : Type} (org doc : String) :
    ∀ (chunks : List (ChunkDoc μ)) (embs : List α) (s : Nat),
      keysOf (mkPoints org doc s chunks embs) =
        (List.range (min chunks.length embs.length)).map
          (fun j => pointId doc (s + j)) := by
  intro chunks
  induction chunks with
  | nil => intro embs s; simp [mkPoints, keysOf]
  | cons c cs ih =>
    intro embs s
    cases embs with
    | nil => simp [mkPoints, keysOf]
    | cons e es =>
      rw [mkPoints]
      show pointId doc s :: keysOf (mkPoints org doc (s + 1) cs es) = _
      rw [ih es (s + 1)]
      have hmin : min (c :: cs).length (e :: es).length =
          min cs.length es.length + 1 := by
        simp only [List.length_cons]
        omega
      rw [hmin, List.range_succ_eq_map, List.map_cons, List.map_map]
      refine congrArg₂ List.cons (by rw [Nat.add_zero]) ?_
      refine List.map_congr_left ?_
      intro j _
      show pointId doc (s + 1 + j) = pointId doc (s + (j + 1))
      exact congrArg (pointId doc) (by omega)

theorem pointId_mem_keysOf_mkPoints {α μ : Type} (org doc : String)
    (chunks : List (ChunkDoc μ)) (embs : List α) (i : Nat)
    (hi : i < (mkPoints org doc 0 chunks embs : List (String × PointPayload α μ)).length) :
    pointId doc i ∈ keysOf (mkPoints org doc 0 chunks embs :
      List (String × PointPayload α μ)) := by
  rw [mkPoints_length] at hi
  rw [keysOf_mkPoints]
  exact List.mem_map.mpr ⟨i, List.mem_range.mpr hi, by rw [Nat.zero_add]⟩

theorem mem_keysOf_iff {α μ : Type} (idx : List (String × PointPayload α μ))
    (k : String) : k ∈ keysOf idx ↔ ∃ p ∈ idx, p.1 = k := by
  simp [keysOf]

theorem ensure_collection_present {α μ : Type} (col : TenantCollection α μ) :
    (ensure_collection col).present = true := by
  unfold ensure_collection
  by_cases h : col.present <;> simp [h]

theorem ensure_collection_of_present {α μ : Type} (col : TenantCollection α μ)
    (h : col.present = true) : ensure_collection col = col := by
  unfold ensure_collection
  rw [if_pos h]

theorem nodup_keysOf_ensure_collection {α μ : Type}
    (col : TenantCollection α μ) (h : (keysOf col.points).Nodup) :
    (keysOf (ensure_collection col).points).Nodup := by
  unfold ensure_collection
  by_cases hp : col.present = true
  · rw [if_pos hp]; exact h
  · rw [if_neg hp]; simp [keysOf]

theorem store_chunks_ok_inv {α μ : Type}
    (embed : List String → Except String (List α))
    (up : List (String × PointPayload α μ) → Except String Unit)
    (org doc : String) (chunks : List (ChunkDoc μ))
    (col : TenantCollection α μ) (n : Nat) (col1 : TenantCollection α μ)
    (h : store_chunks embed up org doc chunks col = (Except.ok n, col1)) :
    (chunks = [] ∧ n = 0 ∧ col1 = col) ∨
    (chunks ≠ [] ∧ ∃ embs pts,
      embed (chunks.map ChunkDoc.content) = Except.ok embs ∧
      runBatches up (batches100 (mkPoints org doc 0 chunks embs))
        (ensure_collection col).points = (none, pts) ∧
      n = (mkPoints org doc 0 chunks embs :
        List (String × PointPayload α μ)).length ∧
      col1 = { present := (ensure_collection col).present, points := pts }) := by
  by_cases hemp : chunks.isEmpty = true
  · left
    rw [store_chunks, if_pos hemp] at h
    have h1 : (Except.ok 0 : Except String Nat) = Except.ok n :=
      congrArg Prod.fst h
    have h2 : col = col1 := congrArg Prod.snd h
    exact ⟨List.isEmpty_iff.mp hemp, (Except.ok.inj h1).symm, h2.symm⟩
  · right
    rw [store_chunks, if_neg hemp] at h
    refine ⟨fun hc => hemp (by simp [hc]), ?_⟩
    cases hemb : embed (chunks.map ChunkDoc.content) with
    | error e => rw [hemb] at h; simp at h
    | ok embs =>
      rw [hemb] at h
      simp only [] at h
      cases hrun : runBatches up (batches100 (mkPoints org doc 0 chunks embs))
          (ensure_collection col).points with
      | mk oe pts =>
        rw [hrun] at h
        cases oe with
        | some e => simp at h
        | none =>
          simp only [Prod.mk.injEq] at h
          exact ⟨embs, pts, rfl, hrun, (Except.ok.inj h.1).symm, h.2.symm⟩

theorem store_chunks_count {α μ : Type}
    (embed : List String → Except String (List α))
    (up : List (String × PointPayload α μ) → Except String Unit)
    (org doc : String) (chunks : List (ChunkDoc μ))
    (col : TenantCollection α μ) (n : Nat) (col1 : TenantCollection α μ)
    (hnodup : (keysOf col.points).Nodup)
    (h : store_chunks embed up org doc chunks col = (Except.ok n, col1)) :
    ∀ i, i < n → (keysOf col1.points).count (pointId doc i) = 1 := by
  rcases store_chunks_ok_inv embed up org doc chunks col n col1 h with
    ⟨_, hn0, _⟩ | ⟨_, embs, pts, _, hrun, hn, hcol⟩
  · intro i hi
    rw [hn0] at hi
    exact absurd hi (Nat.not_lt_zero i)
  · obtain ⟨_, hpts⟩ := runBatches_none up _ _ _ hrun
    rw [foldl_upsertBatch_batches100] at hpts
    intro i hi
    have hpoints : col1.points = pts := by rw [hcol]
    rw [hpoints, hpts]
    have hbase := nodup_keysOf_ensure_collection col hnodup
    refine List.count_eq_one_of_mem (nodup_keysOf_foldUpsert _ _ hbase) ?_
    have hmem := pointId_mem_keysOf_mkPoints org doc chunks embs i (hn ▸ hi)
    obtain ⟨p, hp, hpk⟩ := (mem_keysOf_iff _ _).mp hmem
    exact hpk ▸ keysOf_foldUpsert_self _ _ p hp

theorem store_chunks_repeat {α μ : Type}
    (embed : List String → Except String (List α))
    (up : List (String × PointPayload α μ) → Except String Unit)
    (org doc : String) (chunks : List (ChunkDoc μ))
    (col : TenantCollection α μ) (n : Nat) (col1 : TenantCollection α μ)
    (hnodup : (keysOf col.points).Nodup)
    (h : store_chunks embed up org doc chunks col = (Except.ok n, col1)) :
    store_chunks embed up org doc chunks col1 = (Except.ok n, col1) := by
  rcases store_chunks_ok_inv embed up org doc chunks col n col1 h with
    ⟨hempty, hn0, hcol⟩ | ⟨hne, embs, pts, hemb, hrun, hn, hcol⟩
  · subst hempty; subst hn0; subst hcol
    simp [store_chunks]
  · obtain ⟨hall, hpts⟩ := runBatches_none up _ _ _ hrun
    rw [foldl_upsertBatch_batches100] at hpts
    have hbase := nodup_keysOf_ensure_collection col hnodup
    have hpresent : col1.present = true := by
      rw [hcol]
      exact ensure_collection_present col
    have hpoints : col1.points = pts := by rw [hcol]
    have hemp2 : ¬ chunks.isEmpty = true := fun hc => hne (List.isEmpty_iff.mp hc)
    rw [store_chunks, if_neg hemp2, ensure_collection_of_present col1 hpresent,
      hemb]
    simp only []
    rw [runBatches_all_ok up _ _ hall]
    simp only []
    rw [foldl_upsertBatch_batches100, hpoints, hpts,
      foldUpsert_idem _ _ hbase, hn, ← hpts, ← hpoints]

/-- C3: the vector point identifier written by `store_chunks` is the
deterministic function `pointId` of the document id and the chunk index
alone (the point-id list of the built points is exactly
`pointId doc 0 .. pointId doc (k-1)`), and storing the same chunks of the
same document twice is idempotent: the second store returns the same count
and leaves the collection unchanged, and the resulting collection holds
exactly one point per stored chunk index — never duplicates. -/
theorem store_chunks_idempotent {α μ : Type}
    (embed : List String → Except String (List α))
    (up : List (String × PointPayload α μ) → Except String Unit)
    (org doc : String) (chunks : List (ChunkDoc μ))
    (col : TenantCollection α μ)
    (hnodup : (keysOf col.points).Nodup) :
    (∀ embs : List α,
      keysOf (mkPoints org doc 0 chunks embs) =
        (List.range (min chunks.length embs.length)).map (pointId doc)) ∧
    ∀ n col1, store_chunks embed up org doc chunks col = (Except.ok n, col1) →
      store_chunks embed up org doc chunks col1 = (Except.ok n, col1) ∧
      ∀ i, i < n → (keysOf col1.points).count (pointId doc i) = 1 := by
  constructor
  · intro embs
    rw [keysOf_mkPoints]
    refine List.map_congr_left ?_
    intro j _
    rw [Nat.zero_add]
  · intro n col1 h
    exact ⟨store_chunks_repeat embed up org doc chunks col n col1 hnodup h,
      store_chunks_count embed up org doc chunks col n col1 hnodup h⟩

/-- C3 witness: two chunks of a concrete document stored into a fresh tenant
collection, with a length-based embedding oracle. -/
theorem store_chunks_idempotent_witness :
    (∀ embs : List Nat,
      keysOf (mkPoints "org1" "doc1" 0
          ([⟨"hello", ()⟩, ⟨"world", ()⟩] : List (ChunkDoc Unit)) embs) =
        (List.range (min 2 embs.length)).map (pointId "doc1")) ∧
    ∀ n col1,
      store_chunks (fun ts => Except.ok (ts.map String.length))
          (fun _ => Except.ok ()) "org1" "doc1"
          ([⟨"hello", ()⟩, ⟨"world", ()⟩] : List (ChunkDoc Unit))
          ⟨false, []⟩ = (Except.ok n, col1) →
        store_chunks (fun ts => Except.ok (ts.map String.length))
            (fun _ => Except.ok ()) "org1" "doc1"
            ([⟨"hello", ()⟩, ⟨"world", ()⟩] : List (ChunkDoc Unit))
            col1 = (Except.ok n, col1) ∧
        ∀ i, i < n → (keysOf col1.points).count (pointId "doc1" i) = 1 :=
  store_chunks_idempotent (fun ts => Except.ok (ts.map String.length))
    (fun _ => Except.ok ()) "org1" "doc1"
    ([⟨"hello", ()⟩, ⟨"world", ()⟩] : List (ChunkDoc Unit))
    ⟨false, []⟩ (by simp [keysOf])

theorem process_document_ok_inv {α μ : Type} (env : IngestEnv α μ)
    (org doc : String) (col : TenantCollection α μ) (n : Nat)
    (col2 : TenantCollection α μ)
    (h : process_document env org doc col = (Except.ok n, col2)) :
    ∃ text chunks, env.extractResult = Except.ok text ∧
      env.chunkResult text = Except.ok chunks ∧
      store_chunks env.embed env.upsertCall org doc chunks col =
        (Except.ok n, col2) := by
  unfold process_document at h
  cases hex : env.extractResult with
  | error e => rw [hex] at h; simp at h
  | ok text =>
    rw [hex] at h
    simp only [] at h
    cases hch : env.chunkResult text with
    | error e => rw [hch] at h; simp at h
    | ok chunks =>
      rw [hch] at h
      simp only [] at h
      exact ⟨text, chunks, rfl, hch, h⟩

/-- C2: `upload_document` always returns a response (it is a total
function), and the document ends in exactly one of the two terminal states:
if processing (extraction, chunking, embedding, vector upsert) raised, the
document is committed with `status=error` and the exception message, and the
response carries the error status; if processing succeeded with `n` stored
chunks, the document is committed with `status=ready`, no error message and
`chunk_count = n`, and the final tenant collection holds exactly one point
per stored chunk index. -/
theorem upload_document_terminal_states {α μ : Type} (env : IngestEnv α μ)
    (org doc : String) (col : TenantCollection α μ)
    (hnodup : (keysOf col.points).Nodup) :
    ((upload_document env org doc col).1.status = ProcessingStatus.ready ∨
      (upload_document env org doc col).1.status = ProcessingStatus.error) ∧
    (∀ e, (process_document env org doc col).1 = Except.error e →
      (upload_document env org doc col).1.status = ProcessingStatus.error ∧
      (upload_document env org doc col).1.error_message = some e ∧
      (upload_document env org doc col).2.1.status = ProcessingStatus.error) ∧
    (∀ n, (process_document env org doc col).1 = Except.ok n →
      (upload_document env org doc col).1.status = ProcessingStatus.ready ∧
      (upload_document env org doc col).1.chunk_count = n ∧
      (upload_document env org doc col).1.error_message = none ∧
      (upload_document env org doc col).2.1.status = ProcessingStatus.ready ∧
      ∀ i, i < n →
        (keysOf (upload_document env org doc col).2.2.points).count
          (pointId doc i) = 1) := by
  cases hp : process_document env org doc col with
  | mk r col2 =>
    cases r with
    | ok n =>
      have hup : upload_document env org doc col =
          ({ status := ProcessingStatus.ready, chunk_count := n,
             error_message := none },
           { status := ProcessingStatus.ready,
             message := "Document processed successfully. " ++ toString n ++
               " chunks created." },
           col2) := by
        unfold upload_document
        rw [hp]
      rw [hup]
      refine ⟨Or.inl rfl, ?_, ?_⟩
      · intro e he
        simp at he
      · intro m hm
        have hmn : n = m := by simpa using hm
        subst hmn
        obtain ⟨text, chunks, _, _, hst⟩ :=
          process_document_ok_inv env org doc col n col2 hp
        refine ⟨rfl, rfl, rfl, rfl, ?_⟩
        intro i hi
        exact store_chunks_count env.embed env.upsertCall org doc chunks col
          n col2 hnodup hst i hi
    | error e0 =>
      have hup : upload_document env org doc col =
          ({ status := ProcessingStatus.error, chunk_count := 0,
             error_message := some e0 },
           { status := ProcessingStatus.error,
             message := "Error processing document: " ++ e0 },
           col2) := by
        unfold upload_document
        rw [hp]
      rw [hup]
      refine ⟨Or.inr rfl, ?_, ?_⟩
      · intro e he
        have he0 : e0 = e := by simpa using he
        subst he0
        exact ⟨rfl, rfl, rfl⟩
      · intro m hm
        simp at hm

/-- C2 witness: a concrete successful ingestion environment ends in a
terminal state. -/
theorem upload_document_terminal_states_witness :
    (upload_document
        (⟨Except.ok "hello world", fun t => Except.ok [⟨t, ()⟩],
          fun ts => Except.ok (ts.map String.length),
          fun _ => Except.ok ()⟩ : IngestEnv Nat Unit)
        "org1" "doc1" ⟨false, []⟩).1.status = ProcessingStatus.ready ∨
    (upload_document
        (⟨Except.ok "hello world", fun t => Except.ok [⟨t, ()⟩],
          fun ts => Except.ok (ts.map String.length),
          fun _ => Except.ok ()⟩ : IngestEnv Nat Unit)
        "org1" "doc1" ⟨false, []⟩).1.status = ProcessingStatus.error :=
  (upload_document_terminal_states
    (⟨Except.ok "hello world", fun t => Except.ok [⟨t, ()⟩],
      fun ts => Except.ok (ts.map String.length),
      fun _ => Except.ok ()⟩ : IngestEnv Nat Unit)
    "org1" "doc1" ⟨false, []⟩ (by simp [keysOf])).1

end Virtus
